import Mathlib

/-!
# Verification of the spacewave beat-synchronized playback engine

This file gives a shallow embedding, in Lean 4, of the two core components of
the spacewave repository that the specification covers:

* the beat/tempo detector `detectBeat` (`src/utils/beatTracker.ts`, the module
  actually imported by the waveform generator), embedded from the analysis
  pipeline that runs on the low-pass-rendered channel data.  The offline
  low-pass render itself is performed by the host audio engine
  (`OfflineAudioContext`), so the embedding takes the rendered mono samples
  (`channelData`) and the sample rate as inputs, exactly as the JS code
  receives them from `renderedBuffer.getChannelData(0)`.  All JS numbers are
  modelled as exact rationals (`ℚ`); sample indices are naturals.

* the deck/transport state machine `MixerDeck` (`MixerDeck.ts`), embedded as a
  record of the fields of `DeckState` that the transport logic reads and
  writes, with host-side audio objects (`AudioContext`, `AudioBufferSourceNode`,
  gain and filter nodes, timeline controls) modelled by presence flags plus an
  explicit environment counting the source nodes that have been started and
  not yet stopped.  `audioContext.currentTime` is passed in as an explicit
  `now : ℚ` parameter.

The two JS `while` loops that fold a candidate tempo into the 90–180 BPM band
are embedded with an explicit fuel argument (structural recursion) so that the
definitions stay kernel-computable; at every call site the fuel is provably
sufficient for the loop to have reached its exit condition (the JS loops
terminate for every positive tempo, and every candidate tempo in the pipeline
is positive), so the embedded functions agree with the JS loops on all inputs
that actually occur.  Likewise the peak scan carries fuel `data.length`, which
is exact whenever the minimum peak gap is at least one sample — true for every
Web Audio sample rate (all are ≥ 8000; the JS scan would not terminate
otherwise), and reflected as a `4 ≤ sampleRate` hypothesis on the theorems
that need it.
-/

/-! ## Beat detector (`src/utils/beatTracker.ts`, `detectBeat`) -/

/-- A beatless ("harmony") region.  `stop` embeds the JS field `end`
(a Lean keyword). -/
structure HarmonySection where
  start : ℚ
  stop : ℚ
  duration : ℚ
deriving DecidableEq

/-- The object resolved by `detectBeat` on success. -/
structure BeatResult where
  tempo : ℚ
  firstBeatOffset : ℚ
  beatInterval : ℚ
  harmonySections : List HarmonySection
  beats : List ℚ
deriving DecidableEq

/-- The scanning loop of `getPeaksAtThreshold`: walk `data` from index `i`;
when a sample exceeds `threshold`, record the index and skip `skip` samples
(`i += Math.floor(sampleRate * 0.3)`), otherwise advance by one.  `fuel` makes
the recursion structural; `fuel = data.length` is exact when `1 ≤ skip`. -/
def peaksGo (threshold : ℚ) (skip : ℕ) : ℕ → List ℚ → ℕ → List ℕ
  | 0, _, _ => []
  | _, [], _ => []
  | fuel + 1, d :: rest, i =>
    if threshold < d then
      i :: peaksGo threshold skip fuel (rest.drop (skip - 1)) (i + skip)
    else
      peaksGo threshold skip fuel rest (i + 1)

/-- `getPeaksAtThreshold(data, threshold)` from `detectBeat`.  The minimum gap
`Math.floor(sampleRate * 0.3)` is `3 * sampleRate / 10` with `ℕ` division. -/
def getPeaksAtThreshold (data : List ℚ) (threshold : ℚ) (sampleRate : ℕ) : List ℕ :=
  peaksGo threshold (3 * sampleRate / 10) data.length data 0

/-- The peak list `detectBeat` computes: `getPeaksAtThreshold(channelData, 0.5)`. -/
def detectedPeaks (channelData : List ℚ) (sampleRate : ℕ) : List ℕ :=
  getPeaksAtThreshold channelData 0.5 sampleRate

/-- The `for (let i = 1; i < peaks.length; i++)` walk over consecutive peak
gaps: a gap strictly greater than `(60 / 120) * 1.5` seconds becomes a harmony
section bounded by the two peaks. -/
def gapSections (sampleRate : ℕ) : List ℕ → List HarmonySection
  | p :: q :: rest =>
    (if (60 / 120 : ℚ) * 1.5 < ((q : ℚ) - (p : ℚ)) / (sampleRate : ℚ) then
      [{ start := (p : ℚ) / (sampleRate : ℚ)
         stop := (q : ℚ) / (sampleRate : ℚ)
         duration := ((q : ℚ) - (p : ℚ)) / (sampleRate : ℚ) }]
    else []) ++ gapSections sampleRate (q :: rest)
  | _ => []

/-- The JS variable `lastPeak`: initialized to `0` and assigned
`currentPeak` on each iteration of the gap walk, so it is the last peak when
there are at least two peaks and `0` otherwise. -/
def lastPeakOf (peaks : List ℕ) : ℕ :=
  (peaks.drop 1).getLastD 0

/-- The unfiltered harmony-section list built by `detectBeat`: a leading
section `[0, firstPeak]` when `peaks[0] > 0`, the consecutive-gap sections,
and a trailing section `[lastPeak, trackEnd]` when `lastPeak` is before the
end of the data. -/
def buildHarmony (sampleRate : ℕ) (dataLen : ℕ) (peaks : List ℕ) : List HarmonySection :=
  (match peaks with
   | [] => []
   | p :: _ =>
     if 0 < p then
       [{ start := 0
          stop := (p : ℚ) / (sampleRate : ℚ)
          duration := (p : ℚ) / (sampleRate : ℚ) }]
     else []) ++
  gapSections sampleRate peaks ++
  (if lastPeakOf peaks < dataLen then
    [{ start := (lastPeakOf peaks : ℚ) / (sampleRate : ℚ)
       stop := (dataLen : ℚ) / (sampleRate : ℚ)
       duration := ((dataLen : ℚ) - (lastPeakOf peaks : ℚ)) / (sampleRate : ℚ) }]
  else [])

/-- `harmonySections.filter(section => section.duration >= 0.5)`. -/
def significantSections (channelData : List ℚ) (sampleRate : ℕ) : List HarmonySection :=
  (buildHarmony sampleRate channelData.length (detectedPeaks channelData sampleRate)).filter
    (fun sec => (0.5 : ℚ) ≤ sec.duration)

/-- The interval histogram update: find an entry with the exact interval and
increment its count, else append `{interval, count: 1}`. -/
def bumpCount : List (ℕ × ℕ) → ℕ → List (ℕ × ℕ)
  | [], v => [(v, 1)]
  | (x, c) :: rest, v =>
    if x = v then (x, c + 1) :: rest else (x, c) :: bumpCount rest v

/-- `intervalCounts`: for each peak, the intervals to the following (up to 10)
peaks, tallied into an interval → count histogram.  The JS guard
`index + i < peaks.length` is the bound carried by `List.get`. -/
def collectIntervals (peaks : List ℕ) : List (ℕ × ℕ) :=
  (List.range peaks.length).foldl
    (fun acc index =>
      (List.range 10).foldl
        (fun acc2 j =>
          if h : index + j + 1 < peaks.length then
            bumpCount acc2
              (peaks.get ⟨index + j + 1, h⟩ - peaks.get ⟨index, by omega⟩)
          else acc2)
        acc)
    []

/-- `while (theoreticalTempo < 90) theoreticalTempo *= 2`, with fuel. -/
def foldLowFuel : ℕ → ℚ → ℚ
  | 0, t => t
  | fuel + 1, t => if t < 90 then foldLowFuel fuel (2 * t) else t

/-- `while (theoreticalTempo > 180) theoreticalTempo /= 2`, with fuel. -/
def foldHighFuel : ℕ → ℚ → ℚ
  | 0, t => t
  | fuel + 1, t => if 180 < t then foldHighFuel fuel (t / 2) else t

/-- JS `Math.round` (round half toward positive infinity). -/
def jsRound (q : ℚ) : ℤ := ⌊q + 1 / 2⌋

/-- The canonical tempo of one interval: convert to seconds, take `60/seconds`,
fold into the 90–180 band by doubling/halving, and round.  Fuel `interval` for
the doubling loop and `sampleRate` for the halving loop is provably sufficient
(`theoreticalTempo_bounds`). -/
def theoreticalTempo (sampleRate interval : ℕ) : ℚ :=
  ((jsRound (foldHighFuel sampleRate
    (foldLowFuel interval
      (60 / ((interval : ℚ) / (sampleRate : ℚ))))) : ℤ) : ℚ)

/-- The tempo-histogram update: add `count` to an existing entry with the same
tempo, else append `{tempo, count}`. -/
def bumpTempo : List (ℚ × ℕ) → ℚ → ℕ → List (ℚ × ℕ)
  | [], t, c => [(t, c)]
  | (x, k) :: rest, t, c =>
    if x = t then (x, k + c) :: rest else (x, k) :: bumpTempo rest t c

/-- `tempoCounts`: the weighted histogram of canonical tempos. -/
def tempoHistogram (sampleRate : ℕ) (peaks : List ℕ) : List (ℚ × ℕ) :=
  (collectIntervals peaks).foldl
    (fun acc ic => bumpTempo acc (theoreticalTempo sampleRate ic.1) ic.2) []

/-- `tempoCounts.sort((a, b) => b.count - a.count)`: a stable sort by count
descending (JS `Array.prototype.sort` is stable; insertion sort with the
non-strict comparison is its stable realization). -/
def sortedTempos (sampleRate : ℕ) (peaks : List ℕ) : List (ℚ × ℕ) :=
  List.insertionSort (fun a b => b.2 ≤ a.2) (tempoHistogram sampleRate peaks)

/-- `detectBeat`, from the rendered mono channel data onward.  Rejections keep
the JS error messages; `if (!detectedTempo)` rejects both the missing and the
zero tempo (JS falsiness). -/
def detectBeat (channelData : List ℚ) (sampleRate : ℕ) : Except String BeatResult :=
  match detectedPeaks channelData sampleRate with
  | [] => .error "No se detectaron picos en el audio."
  | p0 :: ps =>
    match (sortedTempos sampleRate (p0 :: ps)).head? with
    | none => .error "No se pudo determinar el tempo."
    | some tc =>
      if tc.1 = 0 then .error "No se pudo determinar el tempo."
      else
        .ok { tempo := tc.1
              firstBeatOffset := (p0 : ℚ) / (sampleRate : ℚ)
              beatInterval := 60 / tc.1
              harmonySections := significantSections channelData sampleRate
              beats := (p0 :: ps).map (fun p => (p : ℚ) / (sampleRate : ℚ)) }

/-! ## Deck transport (`MixerDeck.ts`)

The `DeckState` record keeps the fields of the JS `DeckState` that the
transport logic reads and writes.  Host-side object references
(`audioContext`, `buffer`, `source`, `gainNode`, the EQ/color filter nodes,
`timelineControls`) are modelled by presence booleans — the transport logic
only ever tests them for null and creates/drops them.  Times are exact
rationals; `audioContext.currentTime` is an explicit parameter `now`.

`AudioEnv` models the observable side effects on the host audio graph needed
for the "one live source node" property: `liveSources` counts buffer-source
nodes on which `start()` has been called but `stop()` has not. -/

/-- The `status` field of `DeckState`. -/
inductive DeckStatus
  | empty
  | loading
  | loaded
  | playing
  | paused
  | error
deriving DecidableEq

/-- The transport-relevant fields of the JS `DeckState`. -/
structure DeckState where
  contextPresent : Bool
  buffer : Bool
  duration : ℚ
  currentFileName : Option String
  gainNode : Bool
  isPlaying : Bool
  pausedAt : ℚ
  playbackRate : ℚ
  source : Bool
  startTime : ℚ
  tempo : Option ℚ
  initialTempo : Option ℚ
  timelineControls : Bool
  filters : Bool
  status : DeckStatus
  error : Option String
deriving DecidableEq

/-- Count of buffer-source nodes started and not yet stopped. -/
structure AudioEnv where
  liveSources : ℕ
deriving DecidableEq

/-- `getInitialState()` (the `AudioContext` is created once and retained). -/
def initialDeckState (contextPresent : Bool) : DeckState :=
  { contextPresent := contextPresent
    buffer := false
    duration := 0
    currentFileName := none
    gainNode := false
    isPlaying := false
    pausedAt := 0
    playbackRate := 1
    source := false
    startTime := 0
    tempo := none
    initialTempo := none
    timelineControls := false
    filters := false
    status := .empty
    error := none }

/-- `disconnectNodes()`: drop the source, gain and filter node references
(`disconnect()` does not stop a started source, so `liveSources` is
unchanged). -/
def disconnectNodes (s : DeckState) : DeckState :=
  { s with source := false, gainNode := false, filters := false }

/-- `play()`: no-op when already playing or not in `loaded`/`paused` status,
or when buffer, context or timeline controls are missing; otherwise create and
connect a fresh source/gain/filter chain, start the source at
`pausedAt % duration`, record `startTime = audioContext.currentTime`, and move
to `playing`. -/
def play (now : ℚ) (s : DeckState) (env : AudioEnv) : DeckState × AudioEnv :=
  if s.isPlaying ∨ (s.status ≠ .loaded ∧ s.status ≠ .paused) then (s, env)
  else if ¬ s.buffer ∨ ¬ s.contextPresent ∨ ¬ s.timelineControls then (s, env)
  else
    ({ s with
        source := true, gainNode := true, filters := true
        startTime := now, isPlaying := true, status := .playing },
     { env with liveSources := env.liveSources + 1 })

/-- `pause()`: no-op unless playing with a live source, a context and timeline
controls; otherwise accumulate the elapsed logical time into `pausedAt`
(clamped to the duration), stop the source, move to `paused`, and disconnect
the nodes. -/
def pause (now : ℚ) (s : DeckState) (env : AudioEnv) : DeckState × AudioEnv :=
  if ¬ s.isPlaying ∨ ¬ s.source ∨ ¬ s.contextPresent ∨ ¬ s.timelineControls then (s, env)
  else
    let elapsed := (now - s.startTime) * s.playbackRate
    (disconnectNodes
      { s with
          pausedAt := min (s.pausedAt + elapsed) s.duration
          isPlaying := false, status := .paused },
     { env with liveSources := env.liveSources - 1 })

/-- `seek(percentageOffset)`: rejected (returns `undefined`) while `loading`,
`empty` or without a buffer; otherwise pause if playing, clamp the target to
`[0, duration]`, store it in `pausedAt`, resume if it was playing, and return
the resolved seek time. -/
def seek (percentageOffset : ℚ) (now : ℚ) (s : DeckState) (env : AudioEnv) :
    (DeckState × AudioEnv) × Option ℚ :=
  if s.status = .loading ∨ s.status = .empty ∨ ¬ s.buffer then ((s, env), none)
  else
    let wasPlaying := s.isPlaying
    let se := if wasPlaying then pause now s env else (s, env)
    let seekTime := max 0 (min (percentageOffset * s.duration) s.duration)
    let s2 := { se.1 with pausedAt := seekTime }
    if wasPlaying then (play now s2 se.2, some seekTime)
    else ((s2, se.2), some seekTime)

/-- `changeTempo(newTempo)`: no-op when `initialTempo` is null (or `0` — JS
falsiness) or the deck is `empty`; clamp to `[30, 300]`; no-op when equal to
the current tempo; if playing, capture the exact position at the old rate,
stop the source and disconnect; update `pausedAt`, `playbackRate` and `tempo`;
restart via `play()` when it was playing. -/
def changeTempo (newTempo : ℚ) (now : ℚ) (s : DeckState) (env : AudioEnv) :
    DeckState × AudioEnv :=
  if s.initialTempo = none ∨ s.initialTempo = some 0 ∨ s.status = .empty then (s, env)
  else
    let initial := s.initialTempo.getD 1
    let safeTempo := max 30 (min 300 newTempo)
    if s.tempo = some safeTempo then (s, env)
    else
      let newPlaybackRate := safeTempo / initial
      let wasPlaying := s.isPlaying
      let step :=
        if s.isPlaying ∧ s.source ∧ s.contextPresent then
          let elapsed := (now - s.startTime) * s.playbackRate
          ((disconnectNodes { s with isPlaying := false, status := .paused },
            { env with liveSources := env.liveSources - 1 }),
           min (s.pausedAt + elapsed) s.duration)
        else ((s, env), s.pausedAt)
      let s2 := { step.1.1 with
        pausedAt := step.2
        playbackRate := newPlaybackRate, tempo := some safeTempo }
      if wasPlaying then play now s2 step.1.2 else (s2, step.1.2)

/-- `reset()`: pause if playing, dispose the timeline generator, disconnect
any remaining nodes, and restore every state field except the retained
`AudioContext` to its initial value. -/
def reset (now : ℚ) (s : DeckState) (env : AudioEnv) : DeckState × AudioEnv :=
  let se := if s.isPlaying then pause now s env else (s, env)
  (initialDeckState se.1.contextPresent, se.2)

/-- The possible outcomes of the host-side part of `loadAudio`: the awaited
`resume()`, `fetch`, `decodeAudioData` and `TimelineGenerator.initialize()`
(which runs the beat detector) calls.  `analysisFailed` covers a rejection
after a successful decode, so the buffer and duration have already been
stored when the catch block runs. -/
inductive LoadOutcome
  | resumeFailed
  | fetchFailed (msg : String)
  | decodeFailed (msg : String)
  | analysisFailed (duration : ℚ) (msg : String)
  | success (duration : ℚ) (tempo : ℚ)

/-- `loadAudio(fileName)`: reset, mark `loading`, bail out into `error` status
when the context is missing or cannot resume; on a fetch/decode/analysis
failure the catch block records `error` status and the message and then calls
`reset()` again; on success store the buffer, duration, timeline controls and
detected tempo and mark `loaded`.  Returns the JS boolean result. -/
def loadAudio (fileName : String) (outcome : LoadOutcome) (now : ℚ)
    (s : DeckState) (env : AudioEnv) : (DeckState × AudioEnv) × Bool :=
  let se := reset now s env
  let s1 := { se.1 with status := DeckStatus.loading }
  if s1.contextPresent = false then
    (({ s1 with status := .error, error := some "AudioContext not available." }, se.2), false)
  else
    match outcome with
    | .resumeFailed =>
      (({ s1 with status := .error, error := some "Failed to resume AudioContext." }, se.2), false)
    | .fetchFailed msg =>
      (reset now { s1 with status := .error, error := some msg } se.2, false)
    | .decodeFailed msg =>
      (reset now { s1 with status := .error, error := some msg } se.2, false)
    | .analysisFailed d msg =>
      (reset now { s1 with
          buffer := true, duration := d
          status := .error, error := some msg } se.2, false)
    | .success d t =>
      (({ s1 with
          buffer := true, duration := d, timelineControls := true
          tempo := some t, initialTempo := some t, status := .loaded
          error := none, currentFileName := some fileName }, se.2), true)

/-- The `currentTime` getter: `pausedAt` when there is no context or the deck
is not playing, else `pausedAt + (now - startTime) * playbackRate` clamped
above by the duration. -/
def currentTime (now : ℚ) (s : DeckState) : ℚ :=
  if ¬ s.contextPresent then s.pausedAt
  else if s.isPlaying then
    min (s.pausedAt + (now - s.startTime) * s.playbackRate) s.duration
  else s.pausedAt

/-! ## Auxiliary definitions used by the theorems -/

/-- Modelled from the spec's harmony-section sentence ("walk consecutive peak
gaps; any gap `> 1.5 × beatIntervalSeconds` is a harmony region bounded by the
two peaks; also emit a leading region `[0, firstPeak]` if `firstPeak > 0` and
a trailing region `[lastPeak, trackEnd]` if nonzero; discard regions
`< 0.5s`"), with the gap threshold amended to what the code uses: `1.5` times
the beat interval of the fixed `120` BPM reference, i.e. `0.75` seconds,
independent of the detected tempo. -/
def specHarmonySections (sampleRate : ℕ) (trackEndSamples : ℕ) (peaks : List ℕ) :
    List HarmonySection :=
  let leading : List HarmonySection :=
    match peaks.head? with
    | some p =>
      if 0 < p then
        [{ start := 0
           stop := (p : ℚ) / (sampleRate : ℚ)
           duration := (p : ℚ) / (sampleRate : ℚ) - 0 }]
      else []
    | none => []
  let gaps : List HarmonySection :=
    (peaks.zip peaks.tail).filterMap fun pq =>
      if 1.5 * (60 / 120 : ℚ) < (pq.2 : ℚ) / (sampleRate : ℚ) - (pq.1 : ℚ) / (sampleRate : ℚ) then
        some { start := (pq.1 : ℚ) / (sampleRate : ℚ)
               stop := (pq.2 : ℚ) / (sampleRate : ℚ)
               duration := (pq.2 : ℚ) / (sampleRate : ℚ) - (pq.1 : ℚ) / (sampleRate : ℚ) }
      else none
  let trailing : List HarmonySection :=
    if (peaks.getLastD 0 : ℚ) / (sampleRate : ℚ) < (trackEndSamples : ℚ) / (sampleRate : ℚ) then
      [{ start := (peaks.getLastD 0 : ℚ) / (sampleRate : ℚ)
         stop := (trackEndSamples : ℚ) / (sampleRate : ℚ)
         duration := (trackEndSamples : ℚ) / (sampleRate : ℚ) -
           (peaks.getLastD 0 : ℚ) / (sampleRate : ℚ) }]
    else []
  (leading ++ gaps ++ trailing).filter fun sec => ¬ (sec.duration < 0.5)

/-- The deck/audio-graph invariant behind "at most one source node alive per
deck": the number of started-and-not-stopped sources is `1` exactly while
playing, the deck holds a source reference exactly while playing, and a
playing deck has a buffer, a context and timeline controls (all true of every
reachable playing state, since `play()` establishes them). -/
def DeckInv (s : DeckState) (env : AudioEnv) : Prop :=
  env.liveSources = (if s.isPlaying then 1 else 0) ∧
  s.source = s.isPlaying ∧
  (s.isPlaying = true → s.contextPresent = true ∧ s.timelineControls = true ∧ s.buffer = true)

/-- A 2.5-second, 12 Hz mono example signal (spikes at samples 0, 8, 16
and 28): detection succeeds on it with tempo 90. -/
def exData : List ℚ :=
  1 :: List.replicate 7 0 ++ 1 :: List.replicate 7 0 ++
    1 :: List.replicate 11 0 ++ [1, 0]

/-- The result `detectBeat` computes on `exData` at sample rate 12. -/
def exResult : BeatResult :=
  { tempo := 90
    firstBeatOffset := 0
    beatInterval := 2 / 3
    harmonySections := [{ start := 4 / 3, stop := 7 / 3, duration := 1 }]
    beats := [0, 2 / 3, 4 / 3, 7 / 3] }

/-- A loaded 200-second deck (status `loaded`, initial tempo 128). -/
def demoLoaded : DeckState :=
  { contextPresent := true
    buffer := true
    duration := 200
    currentFileName := some "demo.mp3"
    gainNode := false
    isPlaying := false
    pausedAt := 0
    playbackRate := 1
    source := false
    startTime := 0
    tempo := some 128
    initialTempo := some 128
    timelineControls := true
    filters := false
    status := .loaded
    error := none }

/-- `demoLoaded` mid-playback (status `playing`, started at audio-clock 3). -/
def demoPlaying : DeckState :=
  { demoLoaded with
    isPlaying := true
    source := true
    gainNode := true
    filters := true
    startTime := 3
    status := .playing }

/-! ## Theorems -/

theorem peaksGo_zero (threshold : ℚ) (skip : ℕ) (data : List ℚ) (i : ℕ) :
    peaksGo threshold skip 0 data i = [] := by
  cases data <;> rfl

theorem peaksGo_nil (threshold : ℚ) (skip fuel i : ℕ) :
    peaksGo threshold skip fuel [] i = [] := by
  cases fuel <;> rfl

theorem peaksGo_cons_of_lt {threshold d : ℚ} (skip fuel : ℕ) (rest : List ℚ) (i : ℕ)
    (h : threshold < d) :
    peaksGo threshold skip (fuel + 1) (d :: rest) i =
      i :: peaksGo threshold skip fuel (rest.drop (skip - 1)) (i + skip) := by
  simp [peaksGo, h]

theorem peaksGo_cons_of_not_lt {threshold d : ℚ} (skip fuel : ℕ) (rest : List ℚ) (i : ℕ)
    (h : ¬ threshold < d) :
    peaksGo threshold skip (fuel + 1) (d :: rest) i =
      peaksGo threshold skip fuel rest (i + 1) := by
  simp [peaksGo, h]

theorem play_tempo (now : ℚ) (s : DeckState) (env : AudioEnv) :
    (play now s env).1.tempo = s.tempo := by
  unfold play
  split_ifs <;> rfl

theorem play_playbackRate (now : ℚ) (s : DeckState) (env : AudioEnv) :
    (play now s env).1.playbackRate = s.playbackRate := by
  unfold play
  split_ifs <;> rfl

/-- **C7.** `pause()` is idempotent: a second `pause()` right after a first
one changes nothing (in particular `pausedAtSeconds` is the same as after one
call), because `pause()` on a deck that is not playing is a complete no-op. -/
theorem pause_idempotent (t1 t2 : ℚ) (s : DeckState) (env : AudioEnv) :
    pause t2 (pause t1 s env).1 (pause t1 s env).2 = pause t1 s env := by
  by_cases h : ¬ s.isPlaying ∨ ¬ s.source ∨ ¬ s.contextPresent ∨ ¬ s.timelineControls
  · simp only [pause, if_pos h]
  · simp only [pause, if_neg h, disconnectNodes]
    simp

/-- **C8.** While a deck is playing at a positive playback rate, the computed
logical position `min (pausedAt + (now - startTime) * playbackRate) duration`
is monotone in the audio-clock instant: two reads at non-decreasing instants
with no intervening state change give non-decreasing positions. -/
theorem currentTime_mono (s : DeckState) (n1 n2 : ℚ) (hp : s.isPlaying = true)
    (hr : 0 < s.playbackRate) (h : n1 ≤ n2) :
    currentTime n1 s ≤ currentTime n2 s := by
  by_cases hc : s.contextPresent
  · simp only [currentTime, hc, hp, not_true, if_neg, if_true]
    have hmul : (n1 - s.startTime) * s.playbackRate ≤ (n2 - s.startTime) * s.playbackRate :=
      mul_le_mul_of_nonneg_right (by linarith) hr.le
    simp only [Bool.not_eq_true, if_false]
    exact min_le_min (by linarith) le_rfl
  · simp [currentTime, hc]

/-- Witness for `currentTime_mono` at a concrete playing deck. -/
theorem currentTime_mono_witness :
    currentTime 4 demoPlaying ≤ currentTime 5 demoPlaying :=
  currentTime_mono demoPlaying 4 5 rfl (by norm_num [demoPlaying, demoLoaded]) (by norm_num)

/-- **C9.** Every successful detection returns
`beatIntervalSeconds = 60 / tempoBPM` exactly. -/
theorem beatInterval_eq_sixty_div_tempo (d : List ℚ) (sr : ℕ) (r : BeatResult)
    (hok : detectBeat d sr = .ok r) : r.beatInterval = 60 / r.tempo := by
  unfold detectBeat at hok
  split at hok
  · simp at hok
  · split at hok
    · simp at hok
    · split at hok
      · simp at hok
      · cases hok
        rfl

theorem exData_peaks : detectedPeaks exData 12 = [0, 8, 16, 28] := by
  norm_num [detectedPeaks, getPeaksAtThreshold, exData, List.replicate,
    peaksGo_cons_of_lt, peaksGo_cons_of_not_lt, peaksGo_zero, peaksGo_nil]

theorem exData_intervals :
    collectIntervals [0, 8, 16, 28] = [(8, 2), (16, 1), (28, 1), (20, 1), (12, 1)] := by
  decide

theorem exData_histogram :
    tempoHistogram 12 [0, 8, 16, 28] = [(90, 3), (103, 1), (144, 1), (120, 1)] := by
  norm_num [tempoHistogram, exData_intervals, bumpTempo, theoreticalTempo,
    foldLowFuel, foldHighFuel, jsRound]

theorem exData_sorted :
    sortedTempos 12 [0, 8, 16, 28] = [(90, 3), (103, 1), (144, 1), (120, 1)] := by
  norm_num [sortedTempos, exData_histogram, List.insertionSort, List.orderedInsert]

theorem exData_lastPeak : lastPeakOf [0, 8, 16, 28] = 28 := by decide

theorem exData_length : exData.length = 30 := by decide

theorem exData_sections : significantSections exData 12 =
    [{ start := 4 / 3, stop := 7 / 3, duration := 1 }] := by
  norm_num [significantSections, buildHarmony, gapSections, exData_peaks,
    exData_lastPeak, exData_length, List.filter]

theorem exData_detect : detectBeat exData 12 = .ok exResult := by
  norm_num [detectBeat, exData_peaks, exData_sorted, exData_sections, exResult]

/-- Witness for `beatInterval_eq_sixty_div_tempo` at the concrete signal
`exData`. -/
theorem beatInterval_eq_sixty_div_tempo_witness :
    exResult.beatInterval = 60 / exResult.tempo :=
  beatInterval_eq_sixty_div_tempo exData 12 exResult exData_detect

/-- **C2.** With a known (nonzero) initial tempo and a non-empty status,
`changeTempo(b)` leaves the current tempo at `b` clamped to `[30, 300]` and
the playback rate at `clamped / initialTempo`.  The hypothesis `h3` is the
rate/tempo consistency every reachable deck satisfies (`playbackRate ==
currentTempoBPM / initialTempoBPM`); it is only needed for the early-return
branch where the requested clamped tempo already equals the current one. -/
theorem changeTempo_clamps (b now : ℚ) (s : DeckState) (env : AudioEnv) (t0 : ℚ)
    (h0 : s.initialTempo = some t0) (h1 : t0 ≠ 0) (h2 : s.status ≠ .empty)
    (h3 : s.tempo = some (max 30 (min 300 b)) → s.playbackRate = max 30 (min 300 b) / t0) :
    (changeTempo b now s env).1.tempo = some (max 30 (min 300 b)) ∧
    (changeTempo b now s env).1.playbackRate = max 30 (min 300 b) / t0 := by
  have hguard : ¬ (s.initialTempo = none ∨ s.initialTempo = some 0 ∨ s.status = .empty) := by
    simp [h0, h2, h1]
  by_cases heq : s.tempo = some (max 30 (min 300 b))
  · simp only [changeTempo, if_neg hguard, if_pos heq]
    exact ⟨heq, h3 heq⟩
  · simp only [changeTempo, if_neg hguard, if_neg heq]
    rw [h0]
    simp only [Option.getD_some]
    constructor <;>
    · split_ifs <;> simp [play_tempo, play_playbackRate]

/-- Witness for `changeTempo_clamps`: on a loaded deck with initial tempo 128,
`changeTempo(1000)` yields tempo 300, `changeTempo(1)` yields tempo 30, and
`changeTempo(140)` yields playback rate `1.09375`. -/
theorem changeTempo_clamps_witness :
    (changeTempo 1000 0 demoLoaded ⟨0⟩).1.tempo = some 300 ∧
    (changeTempo 1 0 demoLoaded ⟨0⟩).1.tempo = some 30 ∧
    (changeTempo 140 0 demoLoaded ⟨0⟩).1.playbackRate = 1.09375 := by
  refine ⟨?_, ?_, ?_⟩
  · have hm : max 30 (min 300 (1000 : ℚ)) = 300 := by
      rw [min_eq_left (by norm_num), max_eq_right (by norm_num)]
    have h := (changeTempo_clamps 1000 0 demoLoaded ⟨0⟩ 128 rfl (by norm_num)
      (by simp [demoLoaded]) (by rw [hm]; intro hx; simp [demoLoaded] at hx)).1
    rwa [hm] at h
  · have hm : max 30 (min 300 (1 : ℚ)) = 30 := by
      rw [min_eq_right (by norm_num), max_eq_left (by norm_num)]
    have h := (changeTempo_clamps 1 0 demoLoaded ⟨0⟩ 128 rfl (by norm_num)
      (by simp [demoLoaded]) (by rw [hm]; intro hx; simp [demoLoaded] at hx)).1
    rwa [hm] at h
  · have hm : max 30 (min 300 (140 : ℚ)) = 140 := by
      rw [min_eq_right (by norm_num), max_eq_right (by norm_num)]
    have h := (changeTempo_clamps 140 0 demoLoaded ⟨0⟩ 128 rfl (by norm_num)
      (by simp [demoLoaded]) (by rw [hm]; intro hx; simp [demoLoaded] at hx)).2
    rw [h, hm]
    norm_num

/-- **C5.** On a loaded or paused (not playing) deck with `0 ≤ f ≤ 1`,
`seek(f)` returns `f * duration` (the clamp to `[0, duration]` is the
identity there), and reading the current position immediately afterwards
while still paused yields the same value. -/
theorem seek_roundtrip (f now now2 : ℚ) (s : DeckState) (env : AudioEnv)
    (hst : s.status = .loaded ∨ s.status = .paused)
    (hb : s.buffer = true) (hp : s.isPlaying = false) (hd : 0 ≤ s.duration)
    (h0 : 0 ≤ f) (h1 : f ≤ 1) :
    (seek f now s env).2 = some (f * s.duration) ∧
    currentTime now2 (seek f now s env).1.1 = f * s.duration := by
  have hguard : ¬ (s.status = .loading ∨ s.status = .empty ∨ ¬ s.buffer = true) := by
    rcases hst with h | h <;> simp [h, hb]
  have hclamp : max 0 (min (f * s.duration) s.duration) = f * s.duration := by
    rw [min_eq_left (mul_le_of_le_one_left hd h1),
      max_eq_right (mul_nonneg h0 hd)]
  simp only [seek, if_neg hguard, hp, Bool.false_eq_true, if_false, hclamp]
  refine ⟨trivial, ?_⟩
  by_cases hc : s.contextPresent = true <;> simp [currentTime, hc, hp]

/-- Witness for `seek_roundtrip`: `seek(0.5)` on a 200-second loaded deck
returns `100.0`, and the position read afterwards is also `100.0`. -/
theorem seek_roundtrip_witness :
    (seek 0.5 0 demoLoaded ⟨0⟩).2 = some 100 ∧
    currentTime 7 (seek 0.5 0 demoLoaded ⟨0⟩).1.1 = 100 := by
  have h := seek_roundtrip 0.5 0 7 demoLoaded ⟨0⟩ (Or.inl rfl) rfl rfl
    (by norm_num [demoLoaded]) (by norm_num) (by norm_num)
  have he : (0.5 : ℚ) * demoLoaded.duration = 100 := by
    norm_num [demoLoaded]
  rw [he] at h
  exact h

theorem reset_fst (now : ℚ) (s : DeckState) (env : AudioEnv) :
    (reset now s env).1 = initialDeckState s.contextPresent := by
  unfold reset pause disconnectNodes
  split_ifs <;> rfl

/-- **C1 counterexample.**  A fetch failure on a loaded deck does *not* leave
the deck in `Error` status with a message: the catch block of `loadAudio` sets
`status = 'error'` and the message, but the `reset()` it then performs
restores `status = 'empty'` and `error = null`, so the caller sees neither. -/
theorem loadAudio_error_status_counterexample :
    (loadAudio "next.mp3" (.fetchFailed "HTTP error! status: 404") 0 demoLoaded ⟨0⟩).1.1.status
        = DeckStatus.empty ∧
    (loadAudio "next.mp3" (.fetchFailed "HTTP error! status: 404") 0 demoLoaded ⟨0⟩).1.1.status
        ≠ DeckStatus.error ∧
    (loadAudio "next.mp3" (.fetchFailed "HTTP error! status: 404") 0 demoLoaded ⟨0⟩).1.1.error
        = none := by
  refine ⟨rfl, by decide, rfl⟩

/-- **C1 (amended).**  Every load that fails in the fetch, decode or
detector/timeline stage returns `false` and leaves the deck fully torn down in
the *initial empty* state (no buffer, no tempo, no beat grid, no timeline, no
audio nodes, `pausedAt = 0`, `playbackRate = 1`) — no partial state remains —
but with `status = empty` and `error = none` rather than the claimed `Error`
status with a retained message, because the catch block's `reset()` clears
both fields it just set. -/
theorem loadAudio_failure_teardown (fn msg : String) (d now : ℚ)
    (s : DeckState) (env : AudioEnv) (hc : s.contextPresent = true) :
    loadAudio fn (.fetchFailed msg) now s env =
      ((initialDeckState true, (reset now s env).2), false) ∧
    loadAudio fn (.decodeFailed msg) now s env =
      ((initialDeckState true, (reset now s env).2), false) ∧
    loadAudio fn (.analysisFailed d msg) now s env =
      ((initialDeckState true, (reset now s env).2), false) := by
  have h1 : (reset now s env).1 = initialDeckState s.contextPresent := reset_fst now s env
  refine ⟨?_, ?_, ?_⟩ <;>
  · unfold loadAudio
    simp only [h1, hc]
    simp [reset, pause, initialDeckState]

/-- Witness for `loadAudio_failure_teardown` at a concrete loaded deck. -/
theorem loadAudio_failure_teardown_witness :
    loadAudio "next.mp3" (.decodeFailed "EncodingError") 0 demoLoaded ⟨0⟩ =
      ((initialDeckState true, (reset 0 demoLoaded ⟨0⟩).2), false) :=
  (loadAudio_failure_teardown "next.mp3" "EncodingError" 0 0 demoLoaded ⟨0⟩ rfl).2.1

theorem play_inv (now : ℚ) (s : DeckState) (env : AudioEnv) (h : DeckInv s env) :
    DeckInv (play now s env).1 (play now s env).2 := by
  obtain ⟨e1, e2, e3⟩ := h
  unfold DeckInv play
  split_ifs with h1 h2 <;> simp_all

theorem pause_inv (now : ℚ) (s : DeckState) (env : AudioEnv) (h : DeckInv s env) :
    DeckInv (pause now s env).1 (pause now s env).2 := by
  obtain ⟨e1, e2, e3⟩ := h
  unfold DeckInv pause disconnectNodes
  split_ifs with h1 <;> simp_all

theorem seek_inv (f now : ℚ) (s : DeckState) (env : AudioEnv) (h : DeckInv s env) :
    DeckInv (seek f now s env).1.1 (seek f now s env).1.2 := by
  simp only [seek]
  split_ifs with hg hw
  · exact h
  · have hp := pause_inv now s env h
    obtain ⟨p1, p2, p3⟩ := hp
    exact play_inv now _ _ ⟨p1, p2, p3⟩
  · obtain ⟨e1, e2, e3⟩ := h
    exact ⟨e1, e2, e3⟩

theorem changeTempo_inv (b now : ℚ) (s : DeckState) (env : AudioEnv) (h : DeckInv s env) :
    DeckInv (changeTempo b now s env).1 (changeTempo b now s env).2 := by
  obtain ⟨e1, e2, e3⟩ := h
  simp only [changeTempo]
  split_ifs <;>
    first
    | exact ⟨e1, e2, e3⟩
    | (rename_i hw hstep
       exact play_inv now _ _
         ⟨by simp [disconnectNodes, e1, hw], by simp [disconnectNodes, e2],
          fun hx => e3 hw⟩)
    | (rename_i hw hstep
       exact absurd hstep.1 hw)

theorem reset_inv (now : ℚ) (s : DeckState) (env : AudioEnv) (h : DeckInv s env) :
    DeckInv (reset now s env).1 (reset now s env).2 := by
  obtain ⟨e1, e2, e3⟩ := h
  simp only [reset, pause]
  split_ifs with h1 h2
  · rcases h2 with h | h | h | h <;> simp_all
  · refine ⟨?_, rfl, by simp [initialDeckState]⟩
    simp_all [initialDeckState]
  · refine ⟨?_, rfl, by simp [initialDeckState]⟩
    simp_all [initialDeckState]

/-- **C6.** At most one audio source node is alive per deck: `play()` while
already playing is a complete no-op (no state change, no second source), and
under the deck/audio-graph invariant `DeckInv` — which says exactly that a
source is started iff the deck is playing — every transport operation
(`play`, `pause`, `seek`, `changeTempo`, `reset`) preserves the invariant, so
the number of live sources never exceeds one. -/
theorem one_source_alive (now f b : ℚ) (s : DeckState) (env : AudioEnv) :
    (s.isPlaying = true → play now s env = (s, env)) ∧
    (DeckInv s env →
      env.liveSources ≤ 1 ∧
      DeckInv (play now s env).1 (play now s env).2 ∧
      DeckInv (pause now s env).1 (pause now s env).2 ∧
      DeckInv (seek f now s env).1.1 (seek f now s env).1.2 ∧
      DeckInv (changeTempo b now s env).1 (changeTempo b now s env).2 ∧
      DeckInv (reset now s env).1 (reset now s env).2) := by
  constructor
  · intro hp
    simp [play, hp]
  · intro h
    refine ⟨?_, play_inv now s env h, pause_inv now s env h, seek_inv f now s env h,
      changeTempo_inv b now s env h, reset_inv now s env h⟩
    rw [h.1]
    split_ifs <;> omega

/-- Witness for `one_source_alive` at a concrete playing deck with one live
source. -/
theorem one_source_alive_witness :
    play 9 demoPlaying ⟨1⟩ = (demoPlaying, ⟨1⟩) ∧ (⟨1⟩ : AudioEnv).liveSources ≤ 1 := by
  have h := one_source_alive 9 0.5 140 demoPlaying ⟨1⟩
  have hinv : DeckInv demoPlaying ⟨1⟩ := by
    refine ⟨rfl, rfl, fun hx => ⟨rfl, rfl, rfl⟩⟩
  exact ⟨h.1 rfl, (h.2 hinv).1⟩

theorem foldLowFuel_ge : ∀ (fuel : ℕ) (t : ℚ), 90 ≤ 2 ^ fuel * t → 90 ≤ foldLowFuel fuel t := by
  intro fuel
  induction fuel with
  | zero => intro t h; simpa [foldLowFuel] using h
  | succ n ih =>
    intro t h
    rw [foldLowFuel]
    split_ifs with hc
    · apply ih
      rw [pow_succ] at h
      calc (90 : ℚ) ≤ 2 ^ n * 2 * t := h
        _ = 2 ^ n * (2 * t) := by ring
    · linarith [not_lt.mp hc]

theorem foldLowFuel_lt : ∀ (fuel : ℕ) (t : ℚ), t < 180 → foldLowFuel fuel t < 180 := by
  intro fuel
  induction fuel with
  | zero => intro t h; simpa [foldLowFuel] using h
  | succ n ih =>
    intro t h
    rw [foldLowFuel]
    split_ifs with hc
    · exact ih (2 * t) (by linarith)
    · exact h

theorem foldLowFuel_of_ge (fuel : ℕ) (t : ℚ) (h : 90 ≤ t) : foldLowFuel fuel t = t := by
  cases fuel with
  | zero => rfl
  | succ n => rw [foldLowFuel, if_neg (not_lt.mpr h)]

theorem foldHighFuel_le : ∀ (fuel : ℕ) (t : ℚ), t ≤ 180 * 2 ^ fuel → foldHighFuel fuel t ≤ 180 := by
  intro fuel
  induction fuel with
  | zero => intro t h; simpa [foldHighFuel] using h
  | succ n ih =>
    intro t h
    rw [foldHighFuel]
    split_ifs with hc
    · apply ih
      rw [pow_succ] at h
      linarith
    · exact not_lt.mp hc

theorem foldHighFuel_ge : ∀ (fuel : ℕ) (t : ℚ), 90 ≤ t → 90 ≤ foldHighFuel fuel t := by
  intro fuel
  induction fuel with
  | zero => intro t h; simpa [foldHighFuel] using h
  | succ n ih =>
    intro t h
    rw [foldHighFuel]
    split_ifs with hc
    · exact ih (t / 2) (by linarith)
    · exact h

theorem three_mul_le_two_mul_two_pow : ∀ n : ℕ, 1 ≤ n → 3 * n ≤ 2 * 2 ^ n := by
  intro n
  induction n with
  | zero => intro h; omega
  | succ m ih =>
    intro _
    rcases Nat.eq_zero_or_pos m with rfl | hm
    · norm_num
    · have h1 := ih hm
      have h2 : 2 ≤ 2 ^ m := by
        calc 2 = 2 ^ 1 := by norm_num
          _ ≤ 2 ^ m := Nat.pow_le_pow_right (by norm_num) hm
      rw [pow_succ]
      generalize 2 ^ m = x at h1 h2 ⊢
      omega

/-- Any candidate tempo built from a positive interval and sample rate is an
integer between 90 and 180: the chosen fuels for the two folding loops are
sufficient, the folded value lands in `[90, 180]`, and rounding keeps it
there. -/
theorem theoreticalTempo_bounds (sr iv : ℕ) (hsr : 1 ≤ sr) (hiv : 1 ≤ iv) :
    ∃ n : ℤ, theoreticalTempo sr iv = (n : ℚ) ∧ 90 ≤ n ∧ n ≤ 180 := by
  have hivQ : (1 : ℚ) ≤ (iv : ℚ) := by exact_mod_cast hiv
  have hsrQ : (1 : ℚ) ≤ (sr : ℚ) := by exact_mod_cast hsr
  have hivpos : (0 : ℚ) < (iv : ℚ) := by linarith
  have ht0eq : 60 / ((iv : ℚ) / (sr : ℚ)) = 60 * (sr : ℚ) / (iv : ℚ) := by
    rw [div_div_eq_mul_div]
  have hpow : (3 * iv : ℚ) ≤ 2 * 2 ^ iv := by
    exact_mod_cast three_mul_le_two_mul_two_pow iv hiv
  have hpow2 : (1 : ℚ) ≤ 2 ^ sr := by
    exact_mod_cast Nat.one_le_two_pow (n := sr)
  have hsrpow : (sr : ℚ) ≤ 2 ^ sr := by
    exact_mod_cast (Nat.lt_two_pow sr).le
  have hlow : (90 : ℚ) ≤ 2 ^ iv * (60 / ((iv : ℚ) / (sr : ℚ))) := by
    rw [ht0eq, ← mul_div_assoc, le_div_iff hivpos]
    have hpowpos : (0 : ℚ) < 2 ^ iv := by positivity
    nlinarith
  have h1 : 90 ≤ foldLowFuel iv (60 / ((iv : ℚ) / (sr : ℚ))) :=
    foldLowFuel_ge iv _ hlow
  have h2 : foldLowFuel iv (60 / ((iv : ℚ) / (sr : ℚ))) ≤ 180 * 2 ^ sr := by
    by_cases hcase : 60 / ((iv : ℚ) / (sr : ℚ)) < 180
    · have := foldLowFuel_lt iv _ hcase
      nlinarith
    · rw [foldLowFuel_of_ge iv _ (by linarith)]
      have hle : 60 / ((iv : ℚ) / (sr : ℚ)) ≤ 60 * (sr : ℚ) := by
        rw [ht0eq]
        exact div_le_self (by positivity) hivQ
      nlinarith
  have h3 := foldHighFuel_ge sr _ h1
  have h4 := foldHighFuel_le sr _ h2
  refine ⟨jsRound (foldHighFuel sr (foldLowFuel iv (60 / ((iv : ℚ) / (sr : ℚ))))), rfl, ?_, ?_⟩
  · rw [jsRound, Int.le_floor]
    push_cast
    linarith
  · have hlt : jsRound (foldHighFuel sr (foldLowFuel iv (60 / ((iv : ℚ) / (sr : ℚ))))) < 181 := by
      rw [jsRound, Int.floor_lt]
      push_cast
      linarith
    omega

theorem peaksGo_ge (threshold : ℚ) (skip : ℕ) :
    ∀ (fuel : ℕ) (data : List ℚ) (i p : ℕ), p ∈ peaksGo threshold skip fuel data i → i ≤ p := by
  intro fuel
  induction fuel with
  | zero =>
    intro data i p hp
    rw [peaksGo_zero] at hp
    simp at hp
  | succ n ih =>
    intro data i p hp
    cases data with
    | nil =>
      rw [peaksGo_nil] at hp
      simp at hp
    | cons d rest =>
      by_cases hc : threshold < d
      · rw [peaksGo_cons_of_lt _ _ _ _ hc] at hp
        rcases List.mem_cons.mp hp with rfl | hp2
        · exact le_rfl
        · exact le_trans (Nat.le_add_right i skip) (ih _ _ _ hp2)
      · rw [peaksGo_cons_of_not_lt _ _ _ _ hc] at hp
        exact le_trans (Nat.le_add_right i 1) (ih _ _ _ hp)

theorem peaksGo_sorted (threshold : ℚ) {skip : ℕ} (hs : 1 ≤ skip) :
    ∀ (fuel : ℕ) (data : List ℚ) (i : ℕ),
      List.Pairwise (· < ·) (peaksGo threshold skip fuel data i) := by
  intro fuel
  induction fuel with
  | zero =>
    intro data i
    rw [peaksGo_zero]
    exact List.Pairwise.nil
  | succ n ih =>
    intro data i
    cases data with
    | nil =>
      rw [peaksGo_nil]
      exact List.Pairwise.nil
    | cons d rest =>
      by_cases hc : threshold < d
      · rw [peaksGo_cons_of_lt _ _ _ _ hc]
        refine List.pairwise_cons.mpr ⟨?_, ih _ _⟩
        intro p hp
        have := peaksGo_ge threshold skip n _ _ p hp
        omega
      · rw [peaksGo_cons_of_not_lt _ _ _ _ hc]
        exact ih _ _

theorem peaksGo_lt (threshold : ℚ) (skip : ℕ) :
    ∀ (fuel : ℕ) (data : List ℚ) (i p : ℕ), p ∈ peaksGo threshold skip fuel data i →
      p < i + data.length := by
  intro fuel
  induction fuel with
  | zero =>
    intro data i p hp
    rw [peaksGo_zero] at hp
    simp at hp
  | succ n ih =>
    intro data i p hp
    cases data with
    | nil =>
      rw [peaksGo_nil] at hp
      simp at hp
    | cons d rest =>
      rw [List.length_cons]
      by_cases hc : threshold < d
      · rw [peaksGo_cons_of_lt _ _ _ _ hc] at hp
        rcases List.mem_cons.mp hp with rfl | hp2
        · omega
        · by_cases h4 : skip - 1 ≤ rest.length
          · have h2 := ih _ _ _ hp2
            rw [List.length_drop] at h2
            omega
          · rw [List.drop_eq_nil_of_le (by omega), peaksGo_nil] at hp2
            simp at hp2
      · rw [peaksGo_cons_of_not_lt _ _ _ _ hc] at hp
        have := ih _ _ _ hp
        omega

theorem skip_pos {sr : ℕ} (h : 4 ≤ sr) : 1 ≤ 3 * sr / 10 := by omega

theorem detectedPeaks_sorted (d : List ℚ) {sr : ℕ} (h : 4 ≤ sr) :
    List.Pairwise (· < ·) (detectedPeaks d sr) :=
  peaksGo_sorted _ (skip_pos h) _ _ _

theorem detectedPeaks_lt (d : List ℚ) (sr : ℕ) :
    ∀ p ∈ detectedPeaks d sr, p < d.length := by
  intro p hp
  simpa using peaksGo_lt 0.5 (3 * sr / 10) d.length d 0 p hp

theorem foldl_preserve {α β : Type} {P : α → Prop} (step : List α → β → List α)
    (hstep : ∀ acc b, (∀ x ∈ acc, P x) → ∀ x ∈ step acc b, P x) :
    ∀ (l : List β) (acc : List α), (∀ x ∈ acc, P x) → ∀ x ∈ l.foldl step acc, P x := by
  intro l
  induction l with
  | nil => exact fun acc h x hx => h x hx
  | cons b rest ih => exact fun acc h x hx => ih _ (hstep acc b h) x hx

theorem foldl_preserve_mem {α β : Type} {P : α → Prop} (step : List α → β → List α) :
    ∀ (l : List β) (acc : List α),
      (∀ x ∈ acc, P x) →
      (∀ b ∈ l, ∀ acc2, (∀ x ∈ acc2, P x) → ∀ x ∈ step acc2 b, P x) →
      ∀ x ∈ l.foldl step acc, P x := by
  intro l
  induction l with
  | nil => exact fun acc h _ x hx => h x hx
  | cons b rest ih =>
    intro acc h hstep x hx
    exact ih _ (hstep b (by simp) acc h)
      (fun b2 hb2 => hstep b2 (by simp [hb2])) x hx

theorem bumpCount_forall {P : ℕ → Prop} :
    ∀ (acc : List (ℕ × ℕ)) (v : ℕ), (∀ x ∈ acc, P x.1) → P v →
      ∀ x ∈ bumpCount acc v, P x.1 := by
  intro acc
  induction acc with
  | nil =>
    intro v _ hv x hx
    rw [bumpCount] at hx
    rcases List.mem_singleton.mp hx with rfl
    exact hv
  | cons a rest ih =>
    intro v hacc hv x hx
    obtain ⟨a1, a2⟩ := a
    rw [bumpCount] at hx
    split_ifs at hx with hc
    · rcases List.mem_cons.mp hx with rfl | hx2
      · exact hacc (a1, a2) (by simp)
      · exact hacc x (by simp [hx2])
    · rcases List.mem_cons.mp hx with rfl | hx2
      · exact hacc (a1, a2) (by simp)
      · exact ih v (fun y hy => hacc y (by simp [hy])) hv x hx2

theorem collectIntervals_forall {P : ℕ → Prop} (peaks : List ℕ)
    (h : ∀ (a b : ℕ) (ha : a < peaks.length) (hb : b < peaks.length), a < b →
      P (peaks.get ⟨b, hb⟩ - peaks.get ⟨a, ha⟩)) :
    ∀ x ∈ collectIntervals peaks, P x.1 := by
  unfold collectIntervals
  apply foldl_preserve
  · intro acc index hacc
    apply foldl_preserve
    · intro acc2 j hacc2 x hx
      by_cases hb : index + j + 1 < peaks.length
      · rw [dif_pos hb] at hx
        exact bumpCount_forall acc2 _ hacc2
          (h index (index + j + 1) (by omega) hb (by omega)) x hx
      · rw [dif_neg hb] at hx
        exact hacc2 x hx
    · exact hacc
  · simp

theorem collectIntervals_pos (peaks : List ℕ) (hs : List.Pairwise (· < ·) peaks) :
    ∀ x ∈ collectIntervals peaks, 1 ≤ x.1 := by
  apply collectIntervals_forall
  intro a b ha hb hab
  have := List.pairwise_iff_get.mp hs ⟨a, ha⟩ ⟨b, hb⟩ hab
  omega

theorem bumpTempo_forall {P : ℚ → Prop} :
    ∀ (acc : List (ℚ × ℕ)) (t : ℚ) (c : ℕ), (∀ x ∈ acc, P x.1) → P t →
      ∀ x ∈ bumpTempo acc t c, P x.1 := by
  intro acc
  induction acc with
  | nil =>
    intro t c _ ht x hx
    rw [bumpTempo] at hx
    rcases List.mem_singleton.mp hx with rfl
    exact ht
  | cons a rest ih =>
    intro t c hacc ht x hx
    obtain ⟨a1, a2⟩ := a
    rw [bumpTempo] at hx
    split_ifs at hx with hc
    · rcases List.mem_cons.mp hx with rfl | hx2
      · exact hacc (a1, a2) (by simp)
      · exact hacc x (by simp [hx2])
    · rcases List.mem_cons.mp hx with rfl | hx2
      · exact hacc (a1, a2) (by simp)
      · exact ih t c (fun y hy => hacc y (by simp [hy])) ht x hx2

theorem tempoHistogram_forall {P : ℚ → Prop} (sr : ℕ) (peaks : List ℕ)
    (h : ∀ x ∈ collectIntervals peaks, P (theoreticalTempo sr x.1)) :
    ∀ x ∈ tempoHistogram sr peaks, P x.1 := by
  unfold tempoHistogram
  intro x hx
  refine foldl_preserve_mem (P := fun y => P y.1) _ (collectIntervals peaks) [] (by simp)
    ?_ x hx
  intro ic hic acc2 hacc2
  exact bumpTempo_forall acc2 _ _ hacc2 (h ic hic)

theorem sortedTempos_subset (sr : ℕ) (peaks : List ℕ) :
    ∀ x ∈ sortedTempos sr peaks, x ∈ tempoHistogram sr peaks := by
  intro x hx
  unfold sortedTempos at hx
  exact (List.perm_insertionSort _ _).mem_iff.mp hx

/-- Inversion of a successful `detectBeat`: the tempo is the head of the
sorted histogram, and the harmony sections are the filtered build. -/
theorem detectBeat_ok_parts (d : List ℚ) (sr : ℕ) (r : BeatResult)
    (hok : detectBeat d sr = .ok r) :
    (∃ tc, (sortedTempos sr (detectedPeaks d sr)).head? = some tc ∧ r.tempo = tc.1) ∧
    r.harmonySections = significantSections d sr ∧
    detectedPeaks d sr ≠ [] := by
  unfold detectBeat at hok
  split at hok
  · simp at hok
  · rename_i p0 ps heq
    split at hok
    · simp at hok
    · rename_i tc heq2
      split at hok
      · simp at hok
      · cases hok
        exact ⟨⟨tc, by rw [heq]; exact heq2, rfl⟩, rfl, by rw [heq]; simp⟩

/-- A successful `detectBeat` needs at least two peaks: with fewer there are
no intervals, hence an empty tempo histogram and a rejection. -/
theorem detectBeat_ok_two_peaks (d : List ℚ) (sr : ℕ) (r : BeatResult)
    (hok : detectBeat d sr = .ok r) :
    2 ≤ (detectedPeaks d sr).length := by
  unfold detectBeat at hok
  split at hok
  · simp at hok
  · rename_i p0 ps heq
    cases ps with
    | nil =>
      have h0 : collectIntervals [p0] = [] := rfl
      have h1 : sortedTempos sr [p0] = [] := by
        simp [sortedTempos, tempoHistogram, h0, List.insertionSort]
      rw [h1] at hok
      simp at hok
    | cons p1 rest =>
      rw [heq]
      simp

/-- **C10.** Every successfully detected tempo is an integer in `[90, 180]`:
each interval's candidate tempo is doubled below 90 and halved above 180,
then rounded to the nearest integer, and the mode of that histogram — an
entry of it — is returned. -/
theorem tempo_integer_in_band (d : List ℚ) (sr : ℕ) (r : BeatResult)
    (hok : detectBeat d sr = .ok r) (hsr : 4 ≤ sr) :
    ∃ n : ℤ, r.tempo = (n : ℚ) ∧ 90 ≤ n ∧ n ≤ 180 := by
  obtain ⟨⟨tc, hhead, htempo⟩, _, _⟩ := detectBeat_ok_parts d sr r hok
  have htc : tc ∈ sortedTempos sr (detectedPeaks d sr) := by
    cases hl : sortedTempos sr (detectedPeaks d sr) with
    | nil => rw [hl] at hhead; simp at hhead
    | cons a l =>
      rw [hl] at hhead
      simp at hhead
      rw [← hhead]
      exact List.mem_cons_self a l
  have htc2 := sortedTempos_subset sr _ tc htc
  have hsorted := detectedPeaks_sorted d hsr
  have hall : ∀ x ∈ tempoHistogram sr (detectedPeaks d sr),
      ∃ n : ℤ, x.1 = (n : ℚ) ∧ 90 ≤ n ∧ n ≤ 180 := by
    apply tempoHistogram_forall (P := fun q => ∃ n : ℤ, q = (n : ℚ) ∧ 90 ≤ n ∧ n ≤ 180)
    intro x hx
    exact theoreticalTempo_bounds sr x.1 (by omega) (collectIntervals_pos _ hsorted x hx)
  obtain ⟨n, hn, h90, h180⟩ := hall tc htc2
  exact ⟨n, htempo.trans hn, h90, h180⟩

/-- Witness for `tempo_integer_in_band` at the concrete signal `exData`
(detected tempo 90). -/
theorem tempo_integer_in_band_witness :
    ∃ n : ℤ, exResult.tempo = (n : ℚ) ∧ 90 ≤ n ∧ n ≤ 180 :=
  tempo_integer_in_band exData 12 exResult exData_detect (by norm_num)

theorem divsr_le {sr : ℕ} (hsr : 0 < (sr : ℚ)) {a b : ℕ} (h : a ≤ b) :
    (a : ℚ) / (sr : ℚ) ≤ (b : ℚ) / (sr : ℚ) :=
  (div_le_div_right hsr).mpr (by exact_mod_cast h)

theorem getLastD_cons_eq (l : List ℕ) (q d1 d2 : ℕ) :
    (q :: l).getLastD d1 = (q :: l).getLastD d2 := by
  cases l with
  | nil => rfl
  | cons a r =>
    conv_lhs => rw [List.getLastD_cons]
    conv_rhs => rw [List.getLastD_cons]

theorem sorted_head_le_getLastD :
    ∀ (l : List ℕ) (q : ℕ), List.Pairwise (· < ·) (q :: l) → q ≤ (q :: l).getLastD 0 := by
  intro l
  induction l with
  | nil => intro q _; exact le_rfl
  | cons a r ih =>
    intro q hs
    have h1 := ih a (List.pairwise_cons.mp hs).2
    have h2 : q < a := (List.pairwise_cons.mp hs).1 a (by simp)
    calc q ≤ a := h2.le
      _ ≤ (a :: r).getLastD 0 := h1
      _ = (a :: r).getLastD q := getLastD_cons_eq r a 0 q
      _ = (q :: a :: r).getLastD 0 := (List.getLastD_cons q 0 (a :: r)).symm

theorem getLastD_mem : ∀ (l : List ℕ) (q : ℕ), (q :: l).getLastD 0 ∈ q :: l := by
  intro l
  induction l with
  | nil => intro q; simp [List.getLastD]
  | cons a r ih =>
    intro q
    rw [List.getLastD_cons, getLastD_cons_eq r a q 0]
    exact List.mem_cons_of_mem q (ih a)

theorem gapSections_start_ge (sr : ℕ) (hsr : 0 < (sr : ℚ)) :
    ∀ (l : List ℕ) (p0 : ℕ), List.Pairwise (· < ·) l → l.head? = some p0 →
      ∀ sec ∈ gapSections sr l, (p0 : ℚ) / (sr : ℚ) ≤ sec.start := by
  intro l
  induction l with
  | nil => intro p0 _ h; simp at h
  | cons p rest ih =>
    intro p0 hs hh sec hsec
    rw [List.head?_cons, Option.some.injEq] at hh
    subst hh
    cases rest with
    | nil => simp [gapSections] at hsec
    | cons q rest2 =>
      rw [gapSections] at hsec
      rcases List.mem_append.mp hsec with h1 | h2
      · split_ifs at h1 with hc
        · rcases List.mem_singleton.mp h1 with rfl
          exact le_rfl
        · simp at h1
      · have hq := ih q (List.pairwise_cons.mp hs).2 rfl sec h2
        have hpq : p ≤ q := ((List.pairwise_cons.mp hs).1 q (by simp)).le
        exact le_trans (divsr_le hsr hpq) hq

theorem gapSections_stop_le (sr : ℕ) (hsr : 0 < (sr : ℚ)) :
    ∀ (l : List ℕ), List.Pairwise (· < ·) l →
      ∀ sec ∈ gapSections sr l, sec.stop ≤ ((l.getLastD 0 : ℕ) : ℚ) / (sr : ℚ) := by
  intro l
  induction l with
  | nil => intro _ sec hsec; simp [gapSections] at hsec
  | cons p rest ih =>
    intro hs sec hsec
    cases rest with
    | nil => simp [gapSections] at hsec
    | cons q rest2 =>
      rw [gapSections] at hsec
      have hlast : (p :: q :: rest2).getLastD 0 = (q :: rest2).getLastD 0 := by
        rw [List.getLastD_cons, getLastD_cons_eq rest2 q p 0]
      rcases List.mem_append.mp hsec with h1 | h2
      · split_ifs at h1 with hc
        · rcases List.mem_singleton.mp h1 with rfl
          rw [hlast]
          exact divsr_le hsr (sorted_head_le_getLastD rest2 q (List.pairwise_cons.mp hs).2)
        · simp at h1
      · rw [hlast]
        exact ih (List.pairwise_cons.mp hs).2 sec h2

theorem gapSections_pairwise (sr : ℕ) (hsr : 0 < (sr : ℚ)) :
    ∀ (l : List ℕ), List.Pairwise (· < ·) l →
      List.Pairwise (fun a b : HarmonySection => a.stop ≤ b.start) (gapSections sr l) := by
  intro l
  induction l with
  | nil => intro _; simp [gapSections]
  | cons p rest ih =>
    intro hs
    cases rest with
    | nil => simp [gapSections]
    | cons q rest2 =>
      rw [gapSections]
      refine List.pairwise_append.mpr ⟨?_, ih (List.pairwise_cons.mp hs).2, ?_⟩
      · split_ifs <;> simp
      · intro a ha b hb
        have hb2 := gapSections_start_ge sr hsr (q :: rest2) q
          (List.pairwise_cons.mp hs).2 rfl b hb
        split_ifs at ha with hc
        · rcases List.mem_singleton.mp ha with rfl
          exact hb2
        · simp at ha

theorem gapSections_start_le_stop (sr : ℕ) (hsr : 0 < (sr : ℚ)) :
    ∀ (l : List ℕ), List.Pairwise (· < ·) l →
      ∀ sec ∈ gapSections sr l, sec.start ≤ sec.stop := by
  intro l
  induction l with
  | nil => intro _ sec hsec; simp [gapSections] at hsec
  | cons p rest ih =>
    intro hs sec hsec
    cases rest with
    | nil => simp [gapSections] at hsec
    | cons q rest2 =>
      rw [gapSections] at hsec
      rcases List.mem_append.mp hsec with h1 | h2
      · split_ifs at h1 with hc
        · rcases List.mem_singleton.mp h1 with rfl
          exact divsr_le hsr ((List.pairwise_cons.mp hs).1 q (by simp)).le
        · simp at h1
      · exact ih (List.pairwise_cons.mp hs).2 sec h2

/-- On a sorted peak list with at least two peaks, the unfiltered harmony
list is chained: each section ends no later than the next begins, and each
section's start is at most its end. -/
theorem buildHarmony_pairwise (sr dataLen : ℕ) (hsr : 0 < (sr : ℚ))
    (p0 p1 : ℕ) (rest : List ℕ) (hs : List.Pairwise (· < ·) (p0 :: p1 :: rest)) :
    List.Pairwise (fun a b : HarmonySection => a.stop ≤ b.start)
      (buildHarmony sr dataLen (p0 :: p1 :: rest)) ∧
    (∀ sec ∈ buildHarmony sr dataLen (p0 :: p1 :: rest), sec.start ≤ sec.stop) := by
  have htl := (List.pairwise_cons.mp hs).2
  have hp01 : p0 < p1 := (List.pairwise_cons.mp hs).1 p1 (by simp)
  have hlasteq : (p0 :: p1 :: rest).getLastD 0 = (p1 :: rest).getLastD 0 := by
    rw [List.getLastD_cons]
    exact getLastD_cons_eq rest p1 p0 0
  have hlastge : p0 ≤ (p1 :: rest).getLastD 0 :=
    le_trans hp01.le (sorted_head_le_getLastD rest p1 htl)
  constructor
  · simp only [buildHarmony]
    refine List.pairwise_append.mpr ⟨List.pairwise_append.mpr
      ⟨?_, gapSections_pairwise sr hsr _ hs, ?_⟩, ?_, ?_⟩
    · split_ifs <;> simp
    · intro a ha b hb
      split_ifs at ha with hl
      · rcases List.mem_singleton.mp ha with rfl
        exact gapSections_start_ge sr hsr _ p0 hs rfl b hb
      · simp at ha
    · split_ifs <;> simp
    · intro a ha b hb
      split_ifs at hb with ht
      · rcases List.mem_singleton.mp hb with rfl
        rcases List.mem_append.mp ha with hal | hag
        · split_ifs at hal with hl
          · rcases List.mem_singleton.mp hal with rfl
            exact divsr_le hsr hlastge
          · simp at hal
        · have h2 := gapSections_stop_le sr hsr _ hs a hag
          rw [hlasteq] at h2
          exact h2
      · simp at hb
  · intro sec hsec
    simp only [buildHarmony] at hsec
    rcases List.mem_append.mp hsec with h12 | h3
    · rcases List.mem_append.mp h12 with h1 | h2
      · split_ifs at h1 with hl
        · rcases List.mem_singleton.mp h1 with rfl
          positivity
        · simp at h1
      · exact gapSections_start_le_stop sr hsr _ hs sec h2
    · split_ifs at h3 with ht
      · rcases List.mem_singleton.mp h3 with rfl
        exact divsr_le hsr (le_of_lt ht)
      · simp at h3

/-- **C4.** For every successful detection, every returned harmony section
lasts at least half a second, consecutive sections do not overlap (each ends
no later than the next begins), and the list is sorted by `start`. -/
theorem harmony_sorted_nonoverlapping (d : List ℚ) (sr : ℕ) (r : BeatResult)
    (hok : detectBeat d sr = .ok r) (hsr : 4 ≤ sr) :
    (∀ sec ∈ r.harmonySections, (0.5 : ℚ) ≤ sec.duration) ∧
    List.Pairwise (fun a b : HarmonySection => a.stop ≤ b.start) r.harmonySections ∧
    List.Pairwise (fun a b : HarmonySection => a.start ≤ b.start) r.harmonySections := by
  obtain ⟨_, hhs, _⟩ := detectBeat_ok_parts d sr r hok
  have hlen := detectBeat_ok_two_peaks d sr r hok
  have hsrQ : (0 : ℚ) < (sr : ℚ) := by
    have : (4 : ℚ) ≤ (sr : ℚ) := by exact_mod_cast hsr
    linarith
  have hsorted := detectedPeaks_sorted d hsr
  rcases hpk : detectedPeaks d sr with _ | ⟨p0, tail⟩
  · rw [hpk] at hlen
    simp at hlen
  rcases tail with _ | ⟨p1, rest⟩
  · rw [hpk] at hlen
    simp at hlen
  rw [hpk] at hsorted
  have hbuild := buildHarmony_pairwise sr d.length hsrQ p0 p1 rest hsorted
  have hfil : r.harmonySections =
      (buildHarmony sr d.length (p0 :: p1 :: rest)).filter
        (fun sec => (0.5 : ℚ) ≤ sec.duration) := by
    rw [hhs]
    unfold significantSections
    rw [hpk]
  have hpw2 : List.Pairwise (fun a b : HarmonySection => a.stop ≤ b.start)
      ((buildHarmony sr d.length (p0 :: p1 :: rest)).filter
        (fun sec => (0.5 : ℚ) ≤ sec.duration)) :=
    hbuild.1.sublist (List.filter_sublist _)
  refine ⟨?_, ?_, ?_⟩
  · intro sec hsec
    rw [hfil] at hsec
    simpa using List.of_mem_filter hsec
  · rw [hfil]
    exact hpw2
  · rw [hfil]
    refine hpw2.imp_of_mem ?_
    intro a b ha hb hab
    exact le_trans (hbuild.2 a (List.mem_of_mem_filter ha)) hab

/-- Witness for `harmony_sorted_nonoverlapping` at the concrete signal
`exData`. -/
theorem harmony_sorted_nonoverlapping_witness :
    (∀ sec ∈ exResult.harmonySections, (0.5 : ℚ) ≤ sec.duration) ∧
    List.Pairwise (fun a b : HarmonySection => a.stop ≤ b.start) exResult.harmonySections ∧
    List.Pairwise (fun a b : HarmonySection => a.start ≤ b.start) exResult.harmonySections :=
  harmony_sorted_nonoverlapping exData 12 exResult exData_detect (by norm_num)

/-- The gap walk is the filter-map of consecutive peak pairs. -/
theorem gapSections_eq_zip (sr : ℕ) :
    ∀ l : List ℕ, gapSections sr l =
      (l.zip l.tail).filterMap (fun pq =>
        if 1.5 * (60 / 120 : ℚ) < (pq.2 : ℚ) / (sr : ℚ) - (pq.1 : ℚ) / (sr : ℚ) then
          some { start := (pq.1 : ℚ) / (sr : ℚ)
                 stop := (pq.2 : ℚ) / (sr : ℚ)
                 duration := (pq.2 : ℚ) / (sr : ℚ) - (pq.1 : ℚ) / (sr : ℚ) }
        else none) := by
  intro l
  induction l with
  | nil => rfl
  | cons p rest ih =>
    cases rest with
    | nil => rfl
    | cons q rest2 =>
      have hsub : ((q : ℚ) - (p : ℚ)) / (sr : ℚ) =
          (q : ℚ) / (sr : ℚ) - (p : ℚ) / (sr : ℚ) := sub_div _ _ _
      rw [gapSections]
      by_cases hc : (60 / 120 : ℚ) * 1.5 < ((q : ℚ) - (p : ℚ)) / (sr : ℚ)
      · have hc2 : 1.5 * (60 / 120 : ℚ) <
            (q : ℚ) / (sr : ℚ) - (p : ℚ) / (sr : ℚ) := by
          rw [← hsub, mul_comm]
          exact hc
        simp only [List.tail_cons, List.zip_cons_cons, List.filterMap_cons,
          if_pos hc, if_pos hc2]
        rw [ih]
        simp only [List.tail_cons, List.singleton_append, hsub]
      · have hc2 : ¬ (1.5 * (60 / 120 : ℚ) <
            (q : ℚ) / (sr : ℚ) - (p : ℚ) / (sr : ℚ)) := by
          rw [← hsub, mul_comm]
          exact hc
        simp only [List.tail_cons, List.zip_cons_cons, List.filterMap_cons,
          if_neg hc, if_neg hc2]
        rw [ih]
        simp [List.tail_cons]

/-- **C3 (amended).**  For every successful detection the emitted harmony
sections are exactly those described by the spec's harmony sentence with the
gap threshold amended from `1.5 × beatIntervalSeconds` of the *detected* grid
to the fixed `1.5 × (60/120) = 0.75` seconds the code actually compares
against: a leading region `[0, firstPeak]` when `firstPeak > 0`, a region per
consecutive peak pair with gap `> 0.75 s` bounded by the two peaks, a
trailing region `[lastPeak, trackEnd]` when nonzero, with regions shorter
than `0.5 s` discarded. -/
theorem harmony_matches_spec (d : List ℚ) (sr : ℕ) (r : BeatResult)
    (hok : detectBeat d sr = .ok r) (hsr : 4 ≤ sr) :
    r.harmonySections = specHarmonySections sr d.length (detectedPeaks d sr) := by
  obtain ⟨_, hhs, _⟩ := detectBeat_ok_parts d sr r hok
  have hlen := detectBeat_ok_two_peaks d sr r hok
  have hsrQ : (0 : ℚ) < (sr : ℚ) := by
    have : (4 : ℚ) ≤ (sr : ℚ) := by exact_mod_cast hsr
    linarith
  rcases hpk : detectedPeaks d sr with _ | ⟨p0, tail⟩
  · rw [hpk] at hlen
    simp at hlen
  rcases tail with _ | ⟨p1, rest⟩
  · rw [hpk] at hlen
    simp at hlen
  have hlast2 : lastPeakOf (p0 :: p1 :: rest) = (p0 :: p1 :: rest).getLastD 0 := by
    show (p1 :: rest).getLastD 0 = (p0 :: p1 :: rest).getLastD 0
    conv_rhs => rw [List.getLastD_cons]
    exact getLastD_cons_eq rest p1 0 p0
  rw [hhs]
  unfold significantSections specHarmonySections
  rw [hpk]
  simp only [List.head?_cons]
  refine Eq.trans (b := (buildHarmony sr d.length (p0 :: p1 :: rest)).filter
      (fun sec => ¬ (sec.duration < 0.5))) ?_ ?_
  · refine List.filter_congr ?_
    intro sec _
    simp [not_lt]
  · congr 1
    have htriff : (lastPeakOf (p0 :: p1 :: rest) < d.length) ↔
        ((((p0 :: p1 :: rest).getLastD 0 : ℕ) : ℚ) / (sr : ℚ) <
          ((d.length : ℕ) : ℚ) / (sr : ℚ)) := by
      rw [← hlast2, div_lt_div_right hsrQ, Nat.cast_lt]
    simp only [buildHarmony]
    congr 1
    congr 1
    · by_cases h0 : 0 < p0
      · rw [if_pos h0, if_pos h0]
        simp
      · rw [if_neg h0, if_neg h0]
    · exact gapSections_eq_zip sr _
    · by_cases htr : lastPeakOf (p0 :: p1 :: rest) < d.length
      · rw [if_pos htr, if_pos (htriff.mp htr), hlast2]
        simp [sub_div]
      · rw [if_neg htr, if_neg (fun hx => htr (htriff.mpr hx))]

/-- Witness for `harmony_matches_spec` at the concrete signal `exData`. -/
theorem harmony_matches_spec_witness :
    exResult.harmonySections = specHarmonySections 12 exData.length (detectedPeaks exData 12) :=
  harmony_matches_spec exData 12 exResult exData_detect (by norm_num)

/-- **C3 counterexample.**  On `exData` detection succeeds with tempo 90
(beat interval `2/3` s), and the gap between the peaks at samples 16 and 28
(`[4/3, 7/3]`, one second) is emitted as a harmony region although it does
not exceed `1.5 × beatIntervalSeconds = 1` second: the code compares gaps
against the fixed `1.5 × (60/120) = 0.75` s threshold of a 120 BPM
reference, not against the detected grid's beat interval. -/
theorem harmony_threshold_counterexample :
    detectBeat exData 12 = Except.ok exResult ∧
    exResult.tempo = 90 ∧
    ({ start := 4 / 3, stop := 7 / 3, duration := 1 } : HarmonySection)
      ∈ exResult.harmonySections ∧
    ¬ ((7 / 3 : ℚ) - 4 / 3 > 1.5 * (60 / exResult.tempo)) := by
  refine ⟨exData_detect, rfl, ?_, ?_⟩
  · simp [exResult]
  · norm_num [exResult]
